import Mathlib

/-!
Verification of `check_littlefs_changes.py`.

The script fingerprints a directory tree with a single MD5 accumulator
(`calculate_directory_hash`), persists the digest as a small JSON record
(`save_hash_to_file` / `load_hash_from_file`), and compares digests across
invocations (`main`).  This file embeds those functions shallowly:

* bytes are `Nat` (values `< 256` in practice), byte strings are `List Nat`;
* a directory tree is the inductive `Tree`, whose per-level `files` and
  `dirs` lists are kept in the (arbitrary) order the filesystem enumerates
  them — exactly the lists `os.walk` hands to the script before it calls
  `dirs.sort()` / `files.sort()`;
* MD5 is implemented in full over `Nat` (RFC 1321), so digests are the
  actual lowercase hex strings the script produces;
* the state file is modelled by `FileState` (missing, malformed text, or
  parsed JSON), and the environment's possible write failures by
  `SaveOutcome`.
-/

/-! ## MD5 (RFC 1321) over `Nat` -/

/-- Truncation of a natural number to a 32-bit word. -/
def m32 (x : Nat) : Nat := x % 4294967296

/-- Left-rotation of a 32-bit word by `s` bits. -/
def rotl32 (x s : Nat) : Nat := m32 (x * 2 ^ s) + x / 2 ^ (32 - s)

/-- The 64 MD5 sine-derived round constants. -/
def md5K : List Nat :=
  [0xd76aa478, 0xe8c7b756, 0x242070db, 0xc1bdceee,
   0xf57c0faf, 0x4787c62a, 0xa8304613, 0xfd469501,
   0x698098d8, 0x8b44f7af, 0xffff5bb1, 0x895cd7be,
   0x6b901122, 0xfd987193, 0xa679438e, 0x49b40821,
   0xf61e2562, 0xc040b340, 0x265e5a51, 0xe9b6c7aa,
   0xd62f105d, 0x02441453, 0xd8a1e681, 0xe7d3fbc8,
   0x21e1cde6, 0xc33707d6, 0xf4d50d87, 0x455a14ed,
   0xa9e3e905, 0xfcefa3f8, 0x676f02d9, 0x8d2a4c8a,
   0xfffa3942, 0x8771f681, 0x6d9d6122, 0xfde5380c,
   0xa4beea44, 0x4bdecfa9, 0xf6bb4b60, 0xbebfbc70,
   0x289b7ec6, 0xeaa127fa, 0xd4ef3085, 0x04881d05,
   0xd9d4d039, 0xe6db99e5, 0x1fa27cf8, 0xc4ac5665,
   0xf4292244, 0x432aff97, 0xab9423a7, 0xfc93a039,
   0x655b59c3, 0x8f0ccc92, 0xffeff47d, 0x85845dd1,
   0x6fa87e4f, 0xfe2ce6e0, 0xa3014314, 0x4e0811a1,
   0xf7537e82, 0xbd3af235, 0x2ad7d2bb, 0xeb86d391]

/-- The 64 MD5 per-round left-rotation amounts. -/
def md5S : List Nat :=
  [7, 12, 17, 22, 7, 12, 17, 22, 7, 12, 17, 22, 7, 12, 17, 22,
   5, 9, 14, 20, 5, 9, 14, 20, 5, 9, 14, 20, 5, 9, 14, 20,
   4, 11, 16, 23, 4, 11, 16, 23, 4, 11, 16, 23, 4, 11, 16, 23,
   6, 10, 15, 21, 6, 10, 15, 21, 6, 10, 15, 21, 6, 10, 15, 21]

/-- Bitwise complement of a 32-bit word. -/
def not32 (x : Nat) : Nat := 4294967295 - x

/-- The MD5 nonlinear mixing function, selected by round index `i`. -/
def md5F (i b c d : Nat) : Nat :=
  if i < 16 then (b &&& c) ||| (not32 b &&& d)
  else if i < 32 then (d &&& b) ||| (not32 d &&& c)
  else if i < 48 then b ^^^ c ^^^ d
  else c ^^^ (b ||| not32 d)

/-- The MD5 message-word schedule: which word round `i` consumes. -/
def md5G (i : Nat) : Nat :=
  if i < 16 then i
  else if i < 32 then (5 * i + 1) % 16
  else if i < 48 then (3 * i + 5) % 16
  else (7 * i) % 16

/-- One MD5 round on state `(a,b,c,d)` with the 16 message words `M`. -/
def md5Round (M : List Nat) (st : Nat × Nat × Nat × Nat) (i : Nat) :
    Nat × Nat × Nat × Nat :=
  let a := st.1
  let b := st.2.1
  let c := st.2.2.1
  let d := st.2.2.2
  let f := m32 (a + md5F i b c d + md5K.getD i 0 + M.getD (md5G i) 0)
  (d, m32 (b + rotl32 f (md5S.getD i 0)), b, c)

/-- Little-endian 32-bit word built from 4 bytes of `l` starting at offset `o`. -/
def leWord (l : List Nat) (o : Nat) : Nat :=
  l.getD o 0 + 256 * l.getD (o+1) 0 + 65536 * l.getD (o+2) 0 + 16777216 * l.getD (o+3) 0

/-- Compression of one 64-byte block (at offset `o` of `msg`) into the state. -/
def md5Block (msg : List Nat) (o : Nat) (st : Nat × Nat × Nat × Nat) :
    Nat × Nat × Nat × Nat :=
  let M := (List.range 16).map (fun j => leWord msg (o + 4 * j))
  let r := (List.range 64).foldl (md5Round M) st
  (m32 (st.1 + r.1), m32 (st.2.1 + r.2.1), m32 (st.2.2.1 + r.2.2.1),
   m32 (st.2.2.2 + r.2.2.2))

/-- Little-endian serialization of `x` into `n` bytes. -/
def leBytes (n x : Nat) : List Nat := (List.range n).map (fun i => x / 256 ^ i % 256)

/-- MD5 padding: `0x80`, zeros up to 56 mod 64, then the 64-bit bit length. -/
def md5Pad (msg : List Nat) : List Nat :=
  msg ++ [128] ++ List.replicate ((120 - (msg.length + 1) % 64) % 64) 0
      ++ leBytes 8 (msg.length * 8 % 18446744073709551616)

/-- MD5 digest of a byte list, as its 16 output bytes. -/
def md5Bytes (msg : List Nat) : List Nat :=
  let p := md5Pad msg
  let st := (List.range (p.length / 64)).foldl
    (fun st i => md5Block p (64 * i) st)
    (0x67452301, 0xefcdab89, 0x98badcfe, 0x10325476)
  leBytes 4 st.1 ++ leBytes 4 st.2.1 ++ leBytes 4 st.2.2.1 ++ leBytes 4 st.2.2.2

/-- Lowercase hex character for a nibble. -/
def hexDigit (n : Nat) : Char := if n < 10 then Char.ofNat (48 + n) else Char.ofNat (87 + n)

/-- Lowercase hex string of a byte list. -/
def hexString (bs : List Nat) : String :=
  String.mk (bs.foldr (fun b acc => hexDigit (b / 16) :: hexDigit (b % 16) :: acc) [])

/-- Model of `hashlib.md5(stream).hexdigest()`: the lowercase hex MD5 digest of
a byte stream.  Feeding the stream in chunks of 8192 bytes, as the script does,
is the same as feeding it whole, so the accumulator is modelled by the stream. -/
def md5hex (msg : List Nat) : String := hexString (md5Bytes msg)

/-! ## Byte-lexicographic order

`files.sort()` / `dirs.sort()` sort name strings lexicographically by code
point; on the byte strings of the model this is `lexLeB`. -/

/-- Lexicographic `≤` on byte strings, as Python compares strings. -/
def lexLeB : List Nat → List Nat → Bool
  | [], _ => true
  | _ :: _, [] => false
  | a :: as, b :: bs => if a < b then true else if b < a then false else lexLeB as bs

theorem lexLeB_refl (l : List Nat) : lexLeB l l = true := by
  induction l with
  | nil => rfl
  | cons a as ih => simp [lexLeB, ih]

theorem lexLeB_total (a b : List Nat) : lexLeB a b = true ∨ lexLeB b a = true := by
  induction a generalizing b with
  | nil => left; rfl
  | cons x xs ih =>
    cases b with
    | nil => right; rfl
    | cons y ys =>
      by_cases h1 : x < y
      · left; simp [lexLeB, h1]
      · by_cases h2 : y < x
        · right; simp [lexLeB, h2, h1]
        · have hxy : x = y := Nat.le_antisymm (Nat.le_of_not_lt h2) (Nat.le_of_not_lt h1)
          subst hxy
          rcases ih ys with h | h
          · left; simp [lexLeB, h]
          · right; simp [lexLeB, h]

theorem lexLeB_antisymm {a b : List Nat} (h1 : lexLeB a b = true)
    (h2 : lexLeB b a = true) : a = b := by
  induction a generalizing b with
  | nil =>
    cases b with
    | nil => rfl
    | cons y ys => simp [lexLeB] at h2
  | cons x xs ih =>
    cases b with
    | nil => simp [lexLeB] at h1
    | cons y ys =>
      by_cases hlt : x < y
      · simp [lexLeB, hlt, Nat.lt_asymm hlt, Nat.lt_irrefl] at h2
      · by_cases hgt : y < x
        · simp [lexLeB, hgt, hlt] at h1
        · have hxy : x = y := Nat.le_antisymm (Nat.le_of_not_lt hgt) (Nat.le_of_not_lt hlt)
          subst hxy
          simp only [lexLeB, if_neg hlt, if_neg hgt] at h1 h2
          rw [ih h1 h2]

theorem lexLeB_trans {a b c : List Nat} (h1 : lexLeB a b = true)
    (h2 : lexLeB b c = true) : lexLeB a c = true := by
  induction a generalizing b c with
  | nil => rfl
  | cons x xs ih =>
    cases b with
    | nil => simp [lexLeB] at h1
    | cons y ys =>
      cases c with
      | nil => simp [lexLeB] at h2
      | cons z zs =>
        simp only [lexLeB] at h1 h2 ⊢
        by_cases hxy : x < y
        · by_cases hyz : y < z
          · simp [Nat.lt_trans hxy hyz]
          · by_cases hzy : z < y
            · simp [lexLeB] at h2; omega
            · have : y = z := by omega
              subst this
              simp [hxy]
        · by_cases hyx : y < x
          · simp [hxy, hyx] at h1
          · have hxy' : x = y := by omega
            subst hxy'
            by_cases hyz : x < z
            · simp [hyz]
            · by_cases hzy : z < x
              · simp [hyz, hzy] at h2
              · have : x = z := by omega
                subst this
                simp only [if_neg hxy, if_neg hyx] at h1 h2 ⊢
                exact ih h1 h2

/-- Order on `(name, payload)` pairs that compares names only: the script
sorts the name lists and the payload (file content / subtree) rides along. -/
def keyLe {β : Type} (p q : List Nat × β) : Prop := lexLeB p.1 q.1 = true

instance {β : Type} : DecidableRel (keyLe (β := β)) :=
  fun p q => inferInstanceAs (Decidable (lexLeB p.1 q.1 = true))

instance {β : Type} : IsTotal (List Nat × β) keyLe :=
  ⟨fun p q => lexLeB_total p.1 q.1⟩

instance {β : Type} : IsTrans (List Nat × β) keyLe :=
  ⟨fun _ _ _ h1 h2 => lexLeB_trans h1 h2⟩

/-- Strict version of `keyLe`; on key-`Nodup` lists `keyLe`-sortedness upgrades
to `keyLt`-sortedness, where antisymmetry holds. -/
def keyLt {β : Type} (p q : List Nat × β) : Prop := keyLe p q ∧ p.1 ≠ q.1

instance {β : Type} : IsAntisymm (List Nat × β) keyLt :=
  ⟨fun _ _ h1 h2 => absurd (lexLeB_antisymm h1.1 h2.1) h1.2⟩

/-- Model of Python's `list.sort()` on the script's name-keyed pair lists. -/
def sortPairs {β : Type} (l : List (List Nat × β)) : List (List Nat × β) :=
  l.insertionSort keyLe

theorem sortPairs_perm {β : Type} (l : List (List Nat × β)) : List.Perm (sortPairs l) l :=
  List.perm_insertionSort keyLe l

theorem sortPairs_sorted {β : Type} (l : List (List Nat × β)) :
    List.Sorted keyLe (sortPairs l) :=
  List.sorted_insertionSort keyLe l

/-- A `keyLe`-sorted list whose keys are `Nodup` is `keyLt`-sorted. -/
theorem sorted_keyLt_of_nodup {β : Type} {l : List (List Nat × β)}
    (hs : List.Sorted keyLe l) (hn : (l.map Prod.fst).Nodup) :
    List.Sorted keyLt l := by
  have hne : l.Pairwise (fun p q : List Nat × β => p.1 ≠ q.1) :=
    (List.pairwise_map.mp hn)
  exact (List.Pairwise.and hs hne)

/-- Sorting is invariant under permutation when names are distinct: the device
by which the script erases filesystem enumeration order. -/
theorem sortPairs_eq_of_perm {β : Type} {l1 l2 : List (List Nat × β)}
    (h : List.Perm l1 l2) (hn : (l1.map Prod.fst).Nodup) : sortPairs l1 = sortPairs l2 := by
  have hn2 : (l2.map Prod.fst).Nodup := (h.map Prod.fst).nodup_iff.mp hn
  have hp : List.Perm (sortPairs l1) (sortPairs l2) :=
    (sortPairs_perm l1).trans (h.trans (sortPairs_perm l2).symm)
  exact List.eq_of_perm_of_sorted hp
    (sorted_keyLt_of_nodup (sortPairs_sorted l1)
      (((sortPairs_perm l1).map Prod.fst).nodup_iff.mpr hn))
    (sorted_keyLt_of_nodup (sortPairs_sorted l2)
      (((sortPairs_perm l2).map Prod.fst).nodup_iff.mpr hn2))

/-- Inserting a pair with key `k` into a list lands at a position determined by
`k` alone; the payload `b` does not affect where, nor the rest of the list. -/
theorem orderedInsert_key_split {β : Type} (k : List Nat) (L : List (List Nat × β)) :
    ∃ L1 L2, L = L1 ++ L2 ∧
      ∀ b : β, L.orderedInsert keyLe (k, b) = L1 ++ (k, b) :: L2 := by
  induction L with
  | nil => exact ⟨[], [], rfl, fun b => rfl⟩
  | cons p L ih =>
    by_cases h : lexLeB k p.1 = true
    · refine ⟨[], p :: L, rfl, fun b => ?_⟩
      have hk : keyLe (k, b) p := h
      simp only [List.orderedInsert, List.nil_append]
      rw [if_pos hk]
    · obtain ⟨L1, L2, hL, hins⟩ := ih
      refine ⟨p :: L1, L2, by rw [hL, List.cons_append], fun b => ?_⟩
      have hk : ¬ keyLe (k, b) p := h
      simp only [List.orderedInsert, List.cons_append]
      rw [if_neg hk, hins b]

/-- Sorting a list with a distinguished element is ordered insertion of that
element into the sort of the rest (given distinct keys). -/
theorem sortPairs_middle {β : Type} (l1 l2 : List (List Nat × β)) (x : List Nat × β)
    (hn : ((l1 ++ x :: l2).map Prod.fst).Nodup) :
    sortPairs (l1 ++ x :: l2) = (sortPairs (l1 ++ l2)).orderedInsert keyLe x := by
  have hperm : List.Perm (l1 ++ x :: l2) (x :: (l1 ++ l2)) := List.perm_middle
  rw [sortPairs_eq_of_perm hperm hn]
  rfl

/-! ## The directory tree model and `calculate_directory_hash` -/

/-- A directory: the files it directly contains (name, content — `none` models
a file that cannot be opened or read) and its immediate subdirectories, both in
raw filesystem enumeration order. -/
inductive DirTree where
  | node (files : List (List Nat × Option (List Nat))) (dirs : List (List Nat × DirTree)) : DirTree

/-- The `files` list of the root node. -/
def DirTree.files : DirTree → List (List Nat × Option (List Nat))
  | .node fs _ => fs

/-- The `dirs` list of the root node. -/
def DirTree.dirs : DirTree → List (List Nat × DirTree)
  | .node _ ds => ds

/-- Model of `os.path.relpath(os.path.join(root, name), directory_path)`: the
relative path of an entry called `name` inside the directory whose relative
path is `pre` (`[]` for the root itself); `47` is the byte of `/`. -/
def pathBytes (pre name : List Nat) : List Nat :=
  if pre = [] then name else pre ++ 47 :: name

/-- Bytes a file's content contributes to the accumulator: an unreadable file
(`none`) is caught by the `except` clause after contributing nothing. -/
def fileBytes (c : Option (List Nat)) : List Nat := c.getD []

/-- Bytes fed for a (sorted) run of files of one directory: for each file its
relative path (UTF-8) and then its content. -/
def streamFiles (pre : List Nat) : List (List Nat × Option (List Nat)) → List Nat
  | [] => []
  | (n, c) :: rest => pathBytes pre n ++ fileBytes c ++ streamFiles pre rest

/-- The full byte stream `calculate_directory_hash` feeds to the MD5
accumulator when walking the tree at relative path `pre`: `os.walk` is
top-down, files of each directory come first in sorted order, and the walk
then descends into the subdirectories in sorted order. -/
def streamTree (pre : List Nat) : DirTree → List Nat
  | .node fs ds =>
    streamFiles pre (sortPairs fs) ++
    ((sortPairs ds).attach.map
      (fun d => streamTree (pathBytes pre d.1.1) d.1.2)).flatten
termination_by t => sizeOf t
decreasing_by
  rename_i ds
  obtain ⟨⟨n, t⟩, hmem⟩ := d
  have h1 : (n, t) ∈ ds := (sortPairs_perm ds).mem_iff.mp hmem
  have h2 := List.sizeOf_lt_of_mem h1
  simp only [Prod.mk.sizeOf_spec] at h2
  show sizeOf t < sizeOf (DirTree.node fs ds)
  simp only [DirTree.node.sizeOf_spec]
  omega

/-- Bytes fed for a (sorted) run of subdirectories of one directory. -/
def streamDirs (pre : List Nat) : List (List Nat × DirTree) → List Nat
  | [] => []
  | (n, t) :: rest => streamTree (pathBytes pre n) t ++ streamDirs pre rest

theorem flatten_map_eq_streamDirs (pre : List Nat) (l : List (List Nat × DirTree)) :
    (l.map (fun d => streamTree (pathBytes pre d.1) d.2)).flatten = streamDirs pre l := by
  induction l with
  | nil => rfl
  | cons p l ih => cases p with
    | mk n t => simp [streamDirs, ih]

/-- Unfolding equation for `streamTree` at a node. -/
theorem streamTree_node (pre : List Nat) (fs : List (List Nat × Option (List Nat)))
    (ds : List (List Nat × DirTree)) :
    streamTree pre (.node fs ds) =
      streamFiles pre (sortPairs fs) ++ streamDirs pre (sortPairs ds) := by
  rw [streamTree]
  have h1 : ((sortPairs ds).attach.map (fun d => streamTree (pathBytes pre d.1.1) d.1.2)) =
      (sortPairs ds).map (fun d => streamTree (pathBytes pre d.1) d.2) :=
    List.attach_map_coe (sortPairs ds) (fun x => streamTree (pathBytes pre x.1) x.2)
  rw [h1, flatten_map_eq_streamDirs]

/-- Model of `calculate_directory_hash(directory_path)`.  The input is the
tree the filesystem presents at that path, or `none` when the path does not
exist (or cannot be listed): `os.walk` then yields nothing, so the function
hashes the empty stream — it never raises. -/
def calculate_directory_hash (root : Option DirTree) : String :=
  md5hex (match root with
    | none => []
    | some t => streamTree [] t)

/-! ## The state file: JSON model, `save_hash_to_file`, `load_hash_from_file` -/

/-- Minimal model of the values `json.load` can produce. -/
inductive Json where
  | null
  | bool (b : Bool)
  | num (n : Int)
  | str (s : String)
  | arr (l : List Json)
  | obj (fields : List (String × Json))

/-- Observable content of the state file at its path.  `missing`: no file
(opening raises `FileNotFoundError`).  `malformed`: text that `json.load`
rejects with `JSONDecodeError` — e.g. an empty file or a strict prefix of a
JSON document, which is what a truncated or partial write leaves behind.
`parsed j`: text that parses to the JSON value `j`. -/
inductive FileState where
  | missing
  | malformed
  | parsed (j : Json)

/-- How the environment treats one attempted save: everything succeeds;
`os.makedirs` or `open(..., 'w')` itself raises (nothing is written); or the
open succeeds — truncating the file — and the write then fails partway. -/
inductive SaveOutcome where
  | success
  | openFail
  | writeFail

/-- Python errors that the script can leave uncaught. -/
inductive PyError where
  | attributeError

/-- Whether `os.path.dirname(p)` is nonempty, i.e. `p` names a parent
directory: for a POSIX path this is exactly containing a `/`. -/
def hasSlash (p : String) : Bool := p.data.contains '/'

/-- Model of `save_hash_to_file(hash_value, hash_file_path)` acting on the
state file whose current content is `st`.  An empty path is falsy and is
rejected up front; a path with no `/` makes `os.path.dirname` return `""` and
`os.makedirs("")` raise `FileNotFoundError`, caught by the `except` → `False`.
Otherwise the `SaveOutcome` decides: on `writeFail` the file was already
truncated by `open(..., 'w')`, so its content becomes malformed text. -/
def save_hash_to_file (hash_value : String) (hash_file_path : String)
    (st : FileState) (out : SaveOutcome) : Bool × FileState :=
  if hash_file_path = "" then (false, st)
  else if hasSlash hash_file_path = false then (false, st)
  else match out with
    | .success => (true, .parsed (.obj [("hash", .str hash_value)]))
    | .openFail => (false, st)
    | .writeFail => (false, .malformed)

/-- Model of `load_hash_from_file(hash_file_path)`: `FileNotFoundError` and
`JSONDecodeError` are caught and yield `None`; on a parsed object,
`data.get('hash')` looks the field up; on any other parsed value, `.get` does
not exist and the `AttributeError` escapes the function. -/
def load_hash_from_file : FileState → Except PyError (Option Json)
  | .missing => .ok none
  | .malformed => .ok none
  | .parsed (.obj fields) => .ok (fields.lookup "hash")
  | .parsed _ => .error .attributeError

/-- Model of Python's `current_hash == previous_hash` where `current_hash` is
a `str` and `previous_hash` came out of the JSON record: equality across
types is `False`. -/
def jsonEqStr : Json → String → Bool
  | .str t, s => t == s
  | _, _ => false

/-- Model of `main()`: argument-count check, directory-existence check,
digest computation, comparison against the loaded record, and the save with
its exit codes.  The result is the process exit code and the final state-file
content.  An uncaught exception (the `AttributeError` case of load) makes the
Python process exit with code 1. -/
def mainRun (argc : Nat) (root : Option DirTree) (hash_file : String)
    (st : FileState) (out : SaveOutcome) : Nat × FileState :=
  if argc ≠ 3 then (1, st)
  else match root with
    | none => (1, st)
    | some t =>
      let current := calculate_directory_hash (some t)
      match load_hash_from_file st with
      | .error _ => (1, st)
      | .ok none =>
        let r := save_hash_to_file current hash_file st out
        if r.1 then (1, r.2) else (2, r.2)
      | .ok (some prev) =>
        if jsonEqStr prev current then (0, st)
        else
          let r := save_hash_to_file current hash_file st out
          if r.1 then (1, r.2) else (2, r.2)

/-! ## Well-formedness and tree relations -/

/-- Well-formedness of a filesystem tree, as every real directory tree is:
within each directory the file names are distinct and the subdirectory names
are distinct, and every name is a nonempty byte string without the path
separator byte `47`. -/
inductive WF : DirTree → Prop where
  | node {fs : List (List Nat × Option (List Nat))} {ds : List (List Nat × DirTree)}
      (hfs : (fs.map Prod.fst).Nodup)
      (hds : (ds.map Prod.fst).Nodup)
      (hfn : ∀ p ∈ fs, p.1 ≠ [] ∧ 47 ∉ p.1)
      (hdn : ∀ p ∈ ds, p.1 ≠ [] ∧ 47 ∉ p.1)
      (hsub : ∀ p ∈ ds, WF p.2) : WF (.node fs ds)

/-- Strong induction over `DirTree`: the motive may be assumed for every
immediate subtree. -/
def dirTreeInd (motive : DirTree → Prop)
    (h : ∀ fs ds, (∀ p ∈ ds, motive p.2) → motive (.node fs ds)) :
    ∀ t, motive t
  | .node fs ds => h fs ds (fun p hp => have := hp; dirTreeInd motive h p.2)
termination_by t => sizeOf t
decreasing_by
  obtain ⟨n, t⟩ := p
  have h2 := List.sizeOf_lt_of_mem hp
  simp only [Prod.mk.sizeOf_spec] at h2
  show sizeOf t < sizeOf (DirTree.node fs ds)
  simp only [DirTree.node.sizeOf_spec]
  omega

/-- Two presentations of one directory tree that differ only in the order in
which the filesystem enumerates entries: permuting the raw `files` or `dirs`
list at any directory, closed under reflexivity and transitivity. -/
inductive TPerm : DirTree → DirTree → Prop where
  | refl (t : DirTree) : TPerm t t
  | trans {t1 t2 t3 : DirTree} : TPerm t1 t2 → TPerm t2 t3 → TPerm t1 t3
  | files {fs1 fs2 : List (List Nat × Option (List Nat))} {ds : List (List Nat × DirTree)} :
      List.Perm fs1 fs2 → TPerm (.node fs1 ds) (.node fs2 ds)
  | dirs {fs : List (List Nat × Option (List Nat))} {ds1 ds2 : List (List Nat × DirTree)} :
      List.Perm ds1 ds2 → TPerm (.node fs ds1) (.node fs ds2)
  | child {fs : List (List Nat × Option (List Nat))} {ds1 ds2 : List (List Nat × DirTree)}
      {d : List Nat} {t t' : DirTree} : TPerm t t' →
      TPerm (.node fs (ds1 ++ (d, t) :: ds2)) (.node fs (ds1 ++ (d, t') :: ds2))

/-- Single-file edits, anywhere in the tree: changing the byte content of one
readable file, or adding one file (removing one is the reverse reading). -/
inductive FEdit : DirTree → DirTree → Prop where
  | modify {fs1 fs2 : List (List Nat × Option (List Nat))} {ds : List (List Nat × DirTree)}
      {n c1 c2 : List Nat} : c1 ≠ c2 →
      FEdit (.node (fs1 ++ (n, some c1) :: fs2) ds) (.node (fs1 ++ (n, some c2) :: fs2) ds)
  | add {fs1 fs2 : List (List Nat × Option (List Nat))} {ds : List (List Nat × DirTree)}
      {n : List Nat} {c : Option (List Nat)} :
      FEdit (.node (fs1 ++ fs2) ds) (.node (fs1 ++ (n, c) :: fs2) ds)
  | child {fs : List (List Nat × Option (List Nat))} {ds1 ds2 : List (List Nat × DirTree)}
      {d : List Nat} {t t' : DirTree} : FEdit t t' →
      FEdit (.node fs (ds1 ++ (d, t) :: ds2)) (.node fs (ds1 ++ (d, t') :: ds2))

/-- Insertion of one empty subdirectory, anywhere in the tree. -/
inductive EDir : DirTree → DirTree → Prop where
  | here {fs : List (List Nat × Option (List Nat))} {ds1 ds2 : List (List Nat × DirTree)}
      {d : List Nat} :
      EDir (.node fs (ds1 ++ ds2)) (.node fs (ds1 ++ (d, .node [] []) :: ds2))
  | child {fs : List (List Nat × Option (List Nat))} {ds1 ds2 : List (List Nat × DirTree)}
      {d : List Nat} {t t' : DirTree} : EDir t t' →
      EDir (.node fs (ds1 ++ (d, t) :: ds2)) (.node fs (ds1 ++ (d, t') :: ds2))

/-- The (relative file path, content bytes) pairs of all files of the tree,
in the order the walk visits them; an unreadable file contributes `[]`
content bytes, exactly as it does to the hash stream. -/
def relPairs : DirTree → List (List Nat × List Nat)
  | .node fs ds =>
    (sortPairs fs).map (fun p => (p.1, fileBytes p.2)) ++
    ((sortPairs ds).attach.map
      (fun d => (relPairs d.1.2).map (fun q => (d.1.1 ++ 47 :: q.1, q.2)))).flatten
termination_by t => sizeOf t
decreasing_by
  rename_i ds
  obtain ⟨⟨n, t⟩, hmem⟩ := d
  have h1 : (n, t) ∈ ds := (sortPairs_perm ds).mem_iff.mp hmem
  have h2 := List.sizeOf_lt_of_mem h1
  simp only [Prod.mk.sizeOf_spec] at h2
  show sizeOf t < sizeOf (DirTree.node fs ds)
  simp only [DirTree.node.sizeOf_spec]
  omega

/-- The pair contributions of a (sorted) run of subdirectories. -/
def relDirs : List (List Nat × DirTree) → List (List Nat × List Nat)
  | [] => []
  | (n, t) :: rest => (relPairs t).map (fun q => (n ++ 47 :: q.1, q.2)) ++ relDirs rest

theorem flatten_map_eq_relDirs (l : List (List Nat × DirTree)) :
    (l.map (fun d => (relPairs d.2).map (fun q => (d.1 ++ 47 :: q.1, q.2)))).flatten =
      relDirs l := by
  induction l with
  | nil => rfl
  | cons p l ih => cases p with
    | mk n t => simp only [List.map_cons, List.flatten_cons, relDirs, ih]

/-- Unfolding equation for `relPairs` at a node. -/
theorem relPairs_node (fs : List (List Nat × Option (List Nat)))
    (ds : List (List Nat × DirTree)) :
    relPairs (.node fs ds) =
      (sortPairs fs).map (fun p => (p.1, fileBytes p.2)) ++ relDirs (sortPairs ds) := by
  rw [relPairs]
  have h1 : ((sortPairs ds).attach.map
      (fun d => (relPairs d.1.2).map (fun q => (d.1.1 ++ 47 :: q.1, q.2)))) =
      (sortPairs ds).map (fun d => (relPairs d.2).map (fun q => (d.1 ++ 47 :: q.1, q.2))) :=
    List.attach_map_coe (sortPairs ds)
      (fun x => (relPairs x.2).map (fun q => (x.1 ++ 47 :: q.1, q.2)))
  rw [h1, flatten_map_eq_relDirs]

/-! ## StateStore and exit-code theorems -/

/-- A successful save wrote the serialized `{'hash': value}` record. -/
theorem save_success_state (v pth : String) (st : FileState) (out : SaveOutcome)
    (h : (save_hash_to_file v pth st out).1 = true) :
    save_hash_to_file v pth st out = (true, .parsed (.obj [("hash", .str v)])) := by
  unfold save_hash_to_file at h ⊢
  by_cases h1 : pth = ""
  · simp [h1] at h
  · by_cases h2 : hasSlash pth = false
    · simp [h1, h2] at h
    · cases out with
      | success => simp [h1, h2]
      | openFail => simp [h1, h2] at h
      | writeFail => simp [h1, h2] at h

/-- C2: with a well-formed argument count and an existing target directory,
`main` exits 0 when the computed digest equals the stored one, leaving the
state file untouched; exits 1 after overwriting the state file with the new
digest when they differ or no prior digest exists; and exits 2 when the
state file cannot be written. -/
theorem main_exit_codes (t : DirTree) (hf : String) (st : FileState)
    (out : SaveOutcome) :
    (∀ p : Json, load_hash_from_file st = .ok (some p) →
      jsonEqStr p (calculate_directory_hash (some t)) = true →
      mainRun 3 (some t) hf st out = (0, st)) ∧
    (∀ p : Json, load_hash_from_file st = .ok (some p) →
      jsonEqStr p (calculate_directory_hash (some t)) = false →
      (save_hash_to_file (calculate_directory_hash (some t)) hf st out).1 = true →
      mainRun 3 (some t) hf st out =
        (1, .parsed (.obj [("hash", .str (calculate_directory_hash (some t)))]))) ∧
    (∀ p : Json, load_hash_from_file st = .ok (some p) →
      jsonEqStr p (calculate_directory_hash (some t)) = false →
      (save_hash_to_file (calculate_directory_hash (some t)) hf st out).1 = false →
      mainRun 3 (some t) hf st out =
        (2, (save_hash_to_file (calculate_directory_hash (some t)) hf st out).2)) ∧
    (load_hash_from_file st = .ok none →
      (save_hash_to_file (calculate_directory_hash (some t)) hf st out).1 = true →
      mainRun 3 (some t) hf st out =
        (1, .parsed (.obj [("hash", .str (calculate_directory_hash (some t)))]))) ∧
    (load_hash_from_file st = .ok none →
      (save_hash_to_file (calculate_directory_hash (some t)) hf st out).1 = false →
      mainRun 3 (some t) hf st out =
        (2, (save_hash_to_file (calculate_directory_hash (some t)) hf st out).2)) := by
  have key : mainRun 3 (some t) hf st out =
      (match load_hash_from_file st with
       | .error _ => (1, st)
       | .ok none =>
         let r := save_hash_to_file (calculate_directory_hash (some t)) hf st out
         if r.1 then (1, r.2) else (2, r.2)
       | .ok (some prev) =>
         if jsonEqStr prev (calculate_directory_hash (some t)) then (0, st)
         else
           let r := save_hash_to_file (calculate_directory_hash (some t)) hf st out
           if r.1 then (1, r.2) else (2, r.2)) := rfl
  refine ⟨fun p hl he => ?_, fun p hl he hs => ?_, fun p hl he hs => ?_,
    fun hl hs => ?_, fun hl hs => ?_⟩
  · rw [key, hl]
    simp only []
    rw [if_pos he]
  · rw [key, hl]
    simp only []
    rw [if_neg (ne_true_of_eq_false he), save_success_state _ _ _ _ hs]
    simp
  · rw [key, hl]
    simp only []
    rw [if_neg (ne_true_of_eq_false he), if_neg (by rw [hs]; exact Bool.false_ne_true)]
  · rw [key, hl]
    simp only []
    rw [save_success_state _ _ _ _ hs]
    simp
  · rw [key, hl]
    simp only []
    rw [if_neg (by rw [hs]; exact Bool.false_ne_true)]

/-- C2 witness: first run on an empty tree with a writable state path: exit 1
and the digest is saved. -/
theorem main_exit_codes_witness :
    mainRun 3 (some (.node [] [])) "build/state.json" .missing .success =
      (1, .parsed (.obj
        [("hash", .str (calculate_directory_hash (some (.node [] []))))])) :=
  (main_exit_codes (.node [] []) "build/state.json" .missing .success).2.2.2.1
    rfl rfl

/-- C3 counterexample: on a nonexistent (or unreadable) root,
`calculate_directory_hash` does not fail: `os.walk` yields nothing and the
function returns the MD5 digest of the empty stream — the very digest an
existing empty directory gets. -/
theorem compute_missing_root_returns_digest :
    calculate_directory_hash none = "d41d8cd98f00b204e9800998ecf8427e" ∧
    calculate_directory_hash none = calculate_directory_hash (some (.node [] [])) := by
  constructor
  · set_option maxRecDepth 10000 in decide
  · show md5hex [] = md5hex (streamTree [] (.node [] []))
    rw [streamTree_node]
    rfl

/-- C3 amended: the existence check lives in `main`, which exits 1 without
computing anything when the directory is missing; `calculate_directory_hash`
itself never raises — on a missing or unreadable root the walk yields nothing
and it returns the digest of the empty stream. -/
theorem missing_root_behavior (hf : String) (st : FileState) (out : SaveOutcome) :
    mainRun 3 none hf st out = (1, st) ∧
    calculate_directory_hash none = calculate_directory_hash (some (.node [] [])) := by
  constructor
  · rfl
  · show md5hex [] = md5hex (streamTree [] (.node [] []))
    rw [streamTree_node]
    rfl

/-- C5: a successful `save(loc, d)` followed by `load(loc)` returns `d`. -/
theorem save_load_roundtrip (v pth : String) (st : FileState) (out : SaveOutcome)
    (h : (save_hash_to_file v pth st out).1 = true) :
    load_hash_from_file (save_hash_to_file v pth st out).2 = .ok (some (.str v)) := by
  rw [save_success_state v pth st out h]
  simp [load_hash_from_file, List.lookup]

/-- C5 witness. -/
theorem save_load_roundtrip_witness :
    load_hash_from_file
        (save_hash_to_file "d1" "out/hash.json" .missing .success).2 =
      .ok (some (.str "d1")) :=
  save_load_roundtrip "d1" "out/hash.json" .missing .success rfl

/-- C6 counterexample: a state file whose text is valid JSON but not an
object — malformed data for this format — makes `load` raise: `json.load`
succeeds, and `data.get('hash')` raises `AttributeError` on a list. -/
theorem load_nonobject_raises :
    load_hash_from_file (.parsed (.arr [])) = .error .attributeError := rfl

/-- C6 amended: `load` returns absent and never raises when the file is
missing or its text fails to parse as JSON, and an object without the `hash`
field also yields absent; but when the text parses to a non-object JSON
value, the uncaught `AttributeError` escapes `load`. -/
theorem load_resilience :
    load_hash_from_file .missing = .ok none ∧
    load_hash_from_file .malformed = .ok none ∧
    (∀ fields : List (String × Json),
      load_hash_from_file (.parsed (.obj fields)) = .ok (fields.lookup "hash")) ∧
    (∀ j : Json, (∀ fields, j ≠ .obj fields) →
      load_hash_from_file (.parsed j) = .error .attributeError) := by
  refine ⟨rfl, rfl, fun fields => rfl, fun j hj => ?_⟩
  cases j with
  | obj fields => exact absurd rfl (hj fields)
  | null => rfl
  | bool b => rfl
  | num n => rfl
  | str s => rfl
  | arr l => rfl

/-- C6 witness. -/
theorem load_resilience_witness :
    load_hash_from_file (.parsed (.obj [("hash", .str "d1")])) =
      .ok (some (.str "d1")) ∧
    load_hash_from_file (.parsed .null) = .error .attributeError :=
  ⟨by rw [load_resilience.2.2.1 [("hash", .str "d1")]]; rfl,
   load_resilience.2.2.2 .null (fun _ h => Json.noConfusion h)⟩

/-- C7 counterexample: `open(path, 'w')` truncates before writing, so a write
failure destroys the previously stored record: before the failed save the
record `d1` was loadable, afterwards `load` finds only truncated (malformed)
text and reports absence. -/
theorem save_truncates_on_write_failure :
    save_hash_to_file "d2" "out/hash.json"
        (.parsed (.obj [("hash", .str "d1")])) .writeFail = (false, .malformed) ∧
    load_hash_from_file (save_hash_to_file "d2" "out/hash.json"
        (.parsed (.obj [("hash", .str "d1")])) .writeFail).2 = .ok none ∧
    load_hash_from_file (.parsed (.obj [("hash", .str "d1")])) =
      .ok (some (.str "d1")) := by
  refine ⟨rfl, rfl, rfl⟩

/-- C7 amended: on any failure `save` returns `False`; a failure before the
file is opened (empty path, missing parent, open error) leaves the previous
state intact, but a failure after the open leaves the file truncated: the
previous record is lost, and the leftover partial text — any strict prefix of
the JSON document is invalid JSON — is read back as absent, never as a
partial record. -/
theorem save_failure_cases (v pth : String) (st : FileState) :
    (∀ out, save_hash_to_file v "" st out = (false, st)) ∧
    (pth ≠ "" → hasSlash pth = true →
      save_hash_to_file v pth st .openFail = (false, st)) ∧
    (pth ≠ "" → hasSlash pth = true →
      save_hash_to_file v pth st .writeFail = (false, .malformed) ∧
      load_hash_from_file .malformed = .ok none) := by
  refine ⟨fun out => rfl, fun h1 h2 => ?_, fun h1 h2 => ⟨?_, rfl⟩⟩
  · unfold save_hash_to_file
    simp [h1, h2]
  · unfold save_hash_to_file
    simp [h1, h2]

/-- C7 amended witness. -/
theorem save_failure_cases_witness :
    save_hash_to_file "d1" "out/hash.json" .missing .openFail = (false, .missing) ∧
    save_hash_to_file "d1" "out/hash.json" .missing .writeFail =
      (false, .malformed) := by
  have h := save_failure_cases "d1" "out/hash.json" .missing
  exact ⟨h.2.1 (by decide) (by decide), (h.2.2 (by decide) (by decide)).1⟩

/-- C9: `save` rejects a location with no parent-directory component without
writing: the empty path is falsy and returns `False` up front, and a bare
filename makes `os.path.dirname` return `""`, on which `os.makedirs` raises
`FileNotFoundError` — caught, returning `False` — whatever the environment
would have done with the write. -/
theorem save_no_parent_dir (v : String) (st : FileState) (out : SaveOutcome) :
    save_hash_to_file v "" st out = (false, st) ∧
    (∀ pth : String, hasSlash pth = false →
      save_hash_to_file v pth st out = (false, st)) := by
  refine ⟨rfl, fun pth h => ?_⟩
  unfold save_hash_to_file
  by_cases h1 : pth = ""
  · simp [h1]
  · simp [h1, h]

/-- C9 witness: a bare filename in a writable working directory. -/
theorem save_no_parent_dir_witness :
    save_hash_to_file "d1" "hash.json" .missing .success = (false, .missing) :=
  (save_no_parent_dir "d1" .missing .success).2 "hash.json" rfl

/-! ## Stream decomposition lemmas -/

theorem streamFiles_append (pre : List Nat) (a b : List (List Nat × Option (List Nat))) :
    streamFiles pre (a ++ b) = streamFiles pre a ++ streamFiles pre b := by
  induction a with
  | nil => rfl
  | cons p a ih => cases p with
    | mk n c => simp [streamFiles, ih]

theorem streamDirs_append (pre : List Nat) (a b : List (List Nat × DirTree)) :
    streamDirs pre (a ++ b) = streamDirs pre a ++ streamDirs pre b := by
  induction a with
  | nil => rfl
  | cons p a ih => cases p with
    | mk n t => simp [streamDirs, ih]

theorem relDirs_append (a b : List (List Nat × DirTree)) :
    relDirs (a ++ b) = relDirs a ++ relDirs b := by
  induction a with
  | nil => rfl
  | cons p a ih => cases p with
    | mk n t => simp [relDirs, ih]

/-- Inversion of well-formedness at a node. -/
theorem wf_node_inv {fs : List (List Nat × Option (List Nat))}
    {ds : List (List Nat × DirTree)} (h : WF (.node fs ds)) :
    (fs.map Prod.fst).Nodup ∧ (ds.map Prod.fst).Nodup ∧
    (∀ p ∈ fs, p.1 ≠ [] ∧ 47 ∉ p.1) ∧ (∀ p ∈ ds, p.1 ≠ [] ∧ 47 ∉ p.1) ∧
    (∀ p ∈ ds, WF p.2) := by
  cases h with
  | node hfs hds hfn hdn hsub => exact ⟨hfs, hds, hfn, hdn, hsub⟩

/-- Keys of a pair list with a replaced middle payload are unchanged. -/
theorem keys_middle_eq {β : Type} (l1 l2 : List (List Nat × β)) (n : List Nat)
    (a b : β) :
    ((l1 ++ (n, a) :: l2).map Prod.fst) = ((l1 ++ (n, b) :: l2).map Prod.fst) := by
  simp

/-- Where an ordered insert of key `n` lands in a file run: the surrounding
stream does not depend on the inserted content. -/
theorem streamFiles_split (pre : List Nat) (L : List (List Nat × Option (List Nat)))
    (n : List Nat) :
    ∃ A B, (∀ c, streamFiles pre (L.orderedInsert keyLe (n, c)) =
        A ++ (pathBytes pre n ++ (fileBytes c ++ B))) ∧
      streamFiles pre L = A ++ B := by
  obtain ⟨L1, L2, hL, hins⟩ := orderedInsert_key_split n L
  refine ⟨streamFiles pre L1, streamFiles pre L2, fun c => ?_, ?_⟩
  · rw [hins c, streamFiles_append]
    simp [streamFiles]
  · rw [hL, streamFiles_append]

/-- Where an ordered insert of key `d` lands in a directory run: the
surrounding stream does not depend on the inserted subtree. -/
theorem streamDirs_split (pre : List Nat) (L : List (List Nat × DirTree))
    (d : List Nat) :
    ∃ A B, (∀ t, streamDirs pre (L.orderedInsert keyLe (d, t)) =
        A ++ (streamTree (pathBytes pre d) t ++ B)) ∧
      streamDirs pre L = A ++ B := by
  obtain ⟨L1, L2, hL, hins⟩ := orderedInsert_key_split d L
  refine ⟨streamDirs pre L1, streamDirs pre L2, fun t => ?_, ?_⟩
  · rw [hins t, streamDirs_append]
    simp [streamDirs]
  · rw [hL, streamDirs_append]

/-- Well-formedness is preserved by enumeration-order changes. -/
theorem wf_of_tperm {t1 t2 : DirTree} (h : TPerm t1 t2) (hw : WF t1) : WF t2 := by
  induction h with
  | refl t => exact hw
  | trans h1 h2 ih1 ih2 => exact ih2 (ih1 hw)
  | files hp =>
    obtain ⟨hfs, hds, hfn, hdn, hsub⟩ := wf_node_inv hw
    exact .node ((hp.map Prod.fst).nodup_iff.mp hfs) hds
      (fun p hp2 => hfn p (hp.symm.subset hp2)) hdn hsub
  | dirs hp =>
    obtain ⟨hfs, hds, hfn, hdn, hsub⟩ := wf_node_inv hw
    exact .node hfs ((hp.map Prod.fst).nodup_iff.mp hds) hfn
      (fun p hp2 => hdn p (hp.symm.subset hp2))
      (fun p hp2 => hsub p (hp.symm.subset hp2))
  | child hc ih =>
    rename_i fs ds1 ds2 d t t'
    obtain ⟨hfs, hds, hfn, hdn, hsub⟩ := wf_node_inv hw
    refine .node hfs ?_ hfn ?_ ?_
    · rw [keys_middle_eq ds1 ds2 d t' t]
      exact hds
    · intro p hp2
      rcases List.mem_append.mp hp2 with h2 | h2
      · exact hdn p (List.mem_append_left _ h2)
      · rcases List.mem_cons.mp h2 with h3 | h3
        · subst h3
          exact hdn (d, t) (List.mem_append_right _ (List.mem_cons_self _ _))
        · exact hdn p (List.mem_append_right _ (List.mem_cons_of_mem _ h3))
    · intro p hp2
      rcases List.mem_append.mp hp2 with h2 | h2
      · exact hsub p (List.mem_append_left _ h2)
      · rcases List.mem_cons.mp h2 with h3 | h3
        · subst h3
          exact ih (hsub (d, t) (List.mem_append_right _ (List.mem_cons_self _ _)))
        · exact hsub p (List.mem_append_right _ (List.mem_cons_of_mem _ h3))

/-- The hash stream is invariant under enumeration order, at every prefix. -/
theorem streamTree_tperm {t1 t2 : DirTree} (h : TPerm t1 t2) :
    WF t1 → ∀ pre, streamTree pre t1 = streamTree pre t2 := by
  induction h with
  | refl t => exact fun _ _ => rfl
  | trans h1 h2 ih1 ih2 =>
    exact fun hw pre => (ih1 hw pre).trans (ih2 (wf_of_tperm h1 hw) pre)
  | files hp =>
    intro hw pre
    obtain ⟨hfs, _, _, _, _⟩ := wf_node_inv hw
    rw [streamTree_node, streamTree_node, sortPairs_eq_of_perm hp hfs]
  | dirs hp =>
    intro hw pre
    obtain ⟨_, hds, _, _, _⟩ := wf_node_inv hw
    rw [streamTree_node, streamTree_node, sortPairs_eq_of_perm hp hds]
  | child hc ih =>
    rename_i fs ds1 ds2 d t t'
    intro hw pre
    obtain ⟨hfs, hds, hfn, hdn, hsub⟩ := wf_node_inv hw
    have hds' : ((ds1 ++ (d, t') :: ds2).map Prod.fst).Nodup := by
      rw [keys_middle_eq ds1 ds2 d t' t]
      exact hds
    rw [streamTree_node, streamTree_node,
      sortPairs_middle ds1 ds2 (d, t) hds, sortPairs_middle ds1 ds2 (d, t') hds']
    obtain ⟨A, B, hsplit, _⟩ := streamDirs_split pre (sortPairs (ds1 ++ ds2)) d
    rw [hsplit t, hsplit t',
      ih (hsub (d, t) (List.mem_append_right _ (List.mem_cons_self _ _))) (pathBytes pre d)]

/-- C1: the digest is a function of the tree alone — determinism is inherent
(the model is a pure function of the tree), and permuting the order in which
the filesystem enumerates files or directories at any level (`TPerm`) leaves
the digest unchanged, because the script sorts both lists before use. -/
theorem digest_enumeration_order_independent {t1 t2 : DirTree} (hw : WF t1)
    (h : TPerm t1 t2) :
    calculate_directory_hash (some t1) = calculate_directory_hash (some t2) := by
  show md5hex (streamTree [] t1) = md5hex (streamTree [] t2)
  rw [streamTree_tperm h hw []]

/-- C1 witness: two enumeration orders of a two-file directory. -/
theorem digest_enumeration_order_independent_witness :
    calculate_directory_hash (some (.node [([98], some [1]), ([97], some [2])] [])) =
      calculate_directory_hash (some (.node [([97], some [2]), ([98], some [1])] [])) :=
  digest_enumeration_order_independent
    (.node (by decide) (by decide) (by decide) (by decide) (fun p hp => nomatch hp))
    (.files (List.Perm.swap ([97], some [2]) ([98], some [1]) []))

/-- pathBytes of a nonempty name is nonempty. -/
theorem pathBytes_length_pos (pre n : List Nat) (h : n ≠ []) :
    0 < (pathBytes pre n).length := by
  unfold pathBytes
  by_cases hp : pre = []
  · rw [if_pos hp]
    exact List.length_pos.mpr h
  · rw [if_neg hp]
    simp

/-- A single-file edit changes the byte stream, at every prefix. -/
theorem fedit_stream_ne {t1 t2 : DirTree} (h : FEdit t1 t2) :
    WF t1 → WF t2 → ∀ pre, streamTree pre t1 ≠ streamTree pre t2 := by
  induction h with
  | modify hne =>
    rename_i fs1 fs2 ds n c1 c2
    intro hw1 _ pre
    obtain ⟨hfs1, _, _, _, _⟩ := wf_node_inv hw1
    have hfs2 : ((fs1 ++ (n, some c2) :: fs2).map Prod.fst).Nodup := by
      rw [keys_middle_eq fs1 fs2 n (some c2) (some c1)]
      exact hfs1
    rw [streamTree_node, streamTree_node,
      sortPairs_middle fs1 fs2 (n, some c1) hfs1,
      sortPairs_middle fs1 fs2 (n, some c2) hfs2]
    obtain ⟨A, B, hsplit, _⟩ := streamFiles_split pre (sortPairs (fs1 ++ fs2)) n
    rw [hsplit (some c1), hsplit (some c2)]
    intro heq
    have h1 := List.append_cancel_right heq
    have h2 := List.append_cancel_left h1
    have h3 := List.append_cancel_left h2
    have h4 := List.append_cancel_right h3
    exact hne h4
  | add =>
    rename_i fs1 fs2 ds n c
    intro _ hw2 pre
    obtain ⟨hfs2, _, hfn2, _, _⟩ := wf_node_inv hw2
    have hn : n ≠ [] :=
      (hfn2 (n, c) (List.mem_append_right _ (List.mem_cons_self _ _))).1
    rw [streamTree_node, streamTree_node, sortPairs_middle fs1 fs2 (n, c) hfs2]
    obtain ⟨A, B, hsplit, hAB⟩ := streamFiles_split pre (sortPairs (fs1 ++ fs2)) n
    rw [hsplit c, hAB]
    intro heq
    have hlen := congrArg List.length heq
    simp only [List.length_append] at hlen
    have hpos := pathBytes_length_pos pre n hn
    omega
  | child hc ih =>
    rename_i fs ds1 ds2 d t t'
    intro hw1 hw2 pre
    obtain ⟨_, hds1, _, _, hsub1⟩ := wf_node_inv hw1
    obtain ⟨_, _, _, _, hsub2⟩ := wf_node_inv hw2
    have hds2 : ((ds1 ++ (d, t') :: ds2).map Prod.fst).Nodup := by
      rw [keys_middle_eq ds1 ds2 d t' t]
      exact hds1
    rw [streamTree_node, streamTree_node,
      sortPairs_middle ds1 ds2 (d, t) hds1, sortPairs_middle ds1 ds2 (d, t') hds2]
    obtain ⟨A, B, hsplit, _⟩ := streamDirs_split pre (sortPairs (ds1 ++ ds2)) d
    rw [hsplit t, hsplit t']
    intro heq
    have h1 := List.append_cancel_left heq
    have h2 := List.append_cancel_left h1
    have h3 := List.append_cancel_right h2
    exact ih (hsub1 (d, t) (List.mem_append_right _ (List.mem_cons_self _ _)))
      (hsub2 (d, t') (List.mem_append_right _ (List.mem_cons_self _ _)))
      (pathBytes pre d) h3

/-- C4 amended: adding, removing, or modifying the byte content of any single
file changes the byte stream over which the MD5 digest is computed (so the
digest changes unless two distinct streams collide under MD5); renaming,
excluded here, can leave the stream unchanged — see the counterexample. -/
theorem single_file_edit_changes_stream {t1 t2 : DirTree} (hw1 : WF t1)
    (hw2 : WF t2) (h : FEdit t1 t2 ∨ FEdit t2 t1) :
    streamTree [] t1 ≠ streamTree [] t2 := by
  rcases h with h | h
  · exact fedit_stream_ne h hw1 hw2 []
  · exact fun he => fedit_stream_ne h hw2 hw1 [] he.symm

/-- C4 modify witness: changing the file `a` from content `x` to content `y`
changes the stream. -/
theorem single_file_edit_changes_stream_witness :
    streamTree [] (.node [([97], some [120])] []) ≠
      streamTree [] (.node [([97], some [121])] []) :=
  single_file_edit_changes_stream
    (.node (by decide) (by decide) (by decide) (by decide) (fun _ hp => nomatch hp))
    (.node (by decide) (by decide) (by decide) (by decide) (fun _ hp => nomatch hp))
    (Or.inl (@FEdit.modify [] [] [] [97] [120] [121] (by decide)))

/-- C4 counterexample: renaming the file `ba` (empty content) to `ab` beside
the file `aba` preserves the concatenated path/content stream — both trees
feed the bytes of `ababa` — and therefore the MD5 digest, yet the trees have
different file listings (same contents, one name changed). -/
theorem rename_can_preserve_digest :
    streamTree [] (.node [([97, 98, 97], some []), ([98, 97], some [])] []) =
      streamTree [] (.node [([97, 98], some []), ([97, 98, 97], some [])] []) ∧
    calculate_directory_hash
        (some (.node [([97, 98, 97], some []), ([98, 97], some [])] [])) =
      calculate_directory_hash
        (some (.node [([97, 98], some []), ([97, 98, 97], some [])] [])) ∧
    DirTree.files (.node [([97, 98, 97], some []), ([98, 97], some [])] []) ≠
      DirTree.files (.node [([97, 98], some []), ([97, 98, 97], some [])] []) := by
  have h1 : streamTree [] (.node [([97, 98, 97], some []), ([98, 97], some [])] []) =
      streamTree [] (.node [([97, 98], some []), ([97, 98, 97], some [])] []) := by
    rw [streamTree_node, streamTree_node]
    rfl
  exact ⟨h1, congrArg md5hex h1, by decide⟩

/-- C8: a file that cannot be opened or read does not abort the walk (the
model is a total function, mirroring the caught per-file exception); it
contributes exactly its relative-path bytes and none of its content bytes, so
the tree hashes identically to the same tree with that file readable but
empty — the unreadable file perturbs the digest via its name alone. -/
theorem unreadable_file_name_only (pre : List Nat) :
    (∀ (n : List Nat) (rest : List (List Nat × Option (List Nat))),
      streamFiles pre ((n, none) :: rest) =
        pathBytes pre n ++ streamFiles pre rest) ∧
    (∀ (fs1 fs2 : List (List Nat × Option (List Nat))) (n : List Nat)
        (ds : List (List Nat × DirTree)),
      ((fs1 ++ (n, none) :: fs2).map Prod.fst).Nodup →
      streamTree pre (.node (fs1 ++ (n, none) :: fs2) ds) =
        streamTree pre (.node (fs1 ++ (n, some []) :: fs2) ds)) := by
  constructor
  · intro n rest
    simp [streamFiles, fileBytes]
  · intro fs1 fs2 n ds hn1
    have hn2 : ((fs1 ++ (n, some []) :: fs2).map Prod.fst).Nodup := by
      rw [keys_middle_eq fs1 fs2 n (some []) (none : Option (List Nat))]
      exact hn1
    rw [streamTree_node, streamTree_node,
      sortPairs_middle fs1 fs2 (n, none) hn1,
      sortPairs_middle fs1 fs2 (n, some []) hn2]
    obtain ⟨A, B, hsplit, _⟩ := streamFiles_split pre (sortPairs (fs1 ++ fs2)) n
    rw [hsplit none, hsplit (some [])]
    rfl

/-- C8 witness. -/
theorem unreadable_file_name_only_witness :
    streamTree [] (.node [([97], none)] []) =
      streamTree [] (.node [([97], some [])] []) :=
  (unreadable_file_name_only []).2 [] [] [97] [] (by decide)

/-! ## The stream as a function of the (relative path, content) pairs -/

theorem pathBytes_nil (n : List Nat) : pathBytes [] n = n := rfl

theorem pathBytes_of_ne (pre n : List Nat) (h : pre ≠ []) :
    pathBytes pre n = pre ++ 47 :: n := if_neg h

/-- Relative-path joining is associative: prefixing `pre` onto `d/r` is
prefixing `pre/d` onto `r`. -/
theorem pathBytes_assoc (pre d r : List Nat) (hd : d ≠ []) :
    pathBytes pre (d ++ 47 :: r) = pathBytes (pathBytes pre d) r := by
  by_cases hp : pre = []
  · subst hp
    rw [pathBytes_nil, pathBytes_nil, pathBytes_of_ne d r hd]
  · rw [pathBytes_of_ne pre _ hp, pathBytes_of_ne pre d hp,
      pathBytes_of_ne _ r (by simp)]
    simp

theorem streamTree_nil_node (pre : List Nat) : streamTree pre (.node [] []) = [] := by
  rw [streamTree_node]
  rfl

theorem streamFiles_eq_flatten (pre : List Nat)
    (L : List (List Nat × Option (List Nat))) :
    streamFiles pre L =
      ((L.map (fun p => (p.1, fileBytes p.2))).map
        (fun q => pathBytes pre q.1 ++ q.2)).flatten := by
  induction L with
  | nil => rfl
  | cons p L ih =>
    obtain ⟨n, c⟩ := p
    simp [streamFiles, ih, List.append_assoc]

theorem streamDirs_eq_flatten (pre : List Nat) (L : List (List Nat × DirTree))
    (hIH : ∀ p ∈ L, ∀ pre2, streamTree pre2 p.2 =
      ((relPairs p.2).map (fun q => pathBytes pre2 q.1 ++ q.2)).flatten)
    (hname : ∀ p ∈ L, p.1 ≠ []) :
    streamDirs pre L =
      ((relDirs L).map (fun q => pathBytes pre q.1 ++ q.2)).flatten := by
  induction L with
  | nil => rfl
  | cons p L ih =>
    obtain ⟨d, t⟩ := p
    have hd : d ≠ [] := hname (d, t) (List.mem_cons_self _ _)
    simp only [streamDirs, relDirs, List.map_append, List.flatten_append]
    congr 1
    · rw [hIH (d, t) (List.mem_cons_self _ _) (pathBytes pre d), List.map_map]
      have hfun : ((fun q : List Nat × List Nat => pathBytes pre q.1 ++ q.2) ∘
          (fun q : List Nat × List Nat => (d ++ 47 :: q.1, q.2))) =
          (fun q : List Nat × List Nat => pathBytes (pathBytes pre d) q.1 ++ q.2) := by
        funext q
        simp [Function.comp, pathBytes_assoc pre d q.1 hd]
      rw [hfun]
    · exact ih (fun p hp => hIH p (List.mem_cons_of_mem _ hp))
        (fun p hp => hname p (List.mem_cons_of_mem _ hp))

/-- The hash stream is the flattening of the walk's (relative path, content)
pairs: directories contribute no bytes of their own. -/
theorem streamTree_eq_relPairs : ∀ t : DirTree, WF t → ∀ pre : List Nat,
    streamTree pre t =
      ((relPairs t).map (fun q => pathBytes pre q.1 ++ q.2)).flatten := by
  intro t
  induction t using dirTreeInd with
  | _ fs ds ih =>
    intro hw pre
    obtain ⟨hfs, hds, hfn, hdn, hsub⟩ := wf_node_inv hw
    rw [streamTree_node, relPairs_node]
    simp only [List.map_append, List.flatten_append]
    congr 1
    · exact streamFiles_eq_flatten pre (sortPairs fs)
    · apply streamDirs_eq_flatten
      · intro p hp pre2
        have hpm : p ∈ ds := (sortPairs_perm ds).mem_iff.mp hp
        exact ih p hpm (hsub p hpm) pre2
      · intro p hp
        exact (hdn p ((sortPairs_perm ds).mem_iff.mp hp)).1

/-! ## Grouping the walk pairs by their first path segment -/

/-- The first segment of a relative path: the bytes before the first
separator. -/
def firstSeg (l : List Nat) : List Nat := l.takeWhile (fun b => !(b == 47))

/-- A pair whose path has no separator: a file of the root directory. -/
def sepFree (q : List Nat × List Nat) : Bool := decide (47 ∉ q.1)

/-- A pair whose path has a separator: a file of some subdirectory. -/
def hasSep (q : List Nat × List Nat) : Bool := decide (47 ∈ q.1)

/-- A pair that lies in the subdirectory called `d`. -/
def inGroup (d : List Nat) (q : List Nat × List Nat) : Bool := firstSeg q.1 == d

theorem firstSeg_prepend (d r : List Nat) (hd : 47 ∉ d) :
    firstSeg (d ++ 47 :: r) = d := by
  induction d with
  | nil => simp [firstSeg]
  | cons x d ih =>
    have hx : ¬ (x = 47) := fun h => hd (h ▸ List.mem_cons_self x d)
    have hd2 : 47 ∉ d := fun h => hd (List.mem_cons_of_mem _ h)
    have hcond : (!(x == 47)) = true := by simp [hx]
    simp only [List.cons_append, firstSeg, List.takeWhile_cons] at ih ⊢
    rw [if_pos hcond, ih hd2]

theorem mem_relDirs {q : List Nat × List Nat} {L : List (List Nat × DirTree)}
    (h : q ∈ relDirs L) :
    ∃ p ∈ L, ∃ r ∈ relPairs p.2, q = (p.1 ++ 47 :: r.1, r.2) := by
  induction L with
  | nil => exact absurd h (List.not_mem_nil q)
  | cons p L ih =>
    obtain ⟨d, t⟩ := p
    rcases List.mem_append.mp h with h2 | h2
    · obtain ⟨r, hr, hq⟩ := List.mem_map.mp h2
      exact ⟨(d, t), List.mem_cons_self _ _, r, hr, hq.symm⟩
    · obtain ⟨p, hp, r, hr, hq⟩ := ih h2
      exact ⟨p, List.mem_cons_of_mem _ hp, r, hr, hq⟩

theorem mem_relDirs_has_sep {q : List Nat × List Nat} {L : List (List Nat × DirTree)}
    (h : q ∈ relDirs L) : 47 ∈ q.1 := by
  obtain ⟨p, _, r, _, hq⟩ := mem_relDirs h
  rw [hq]
  simp

/-- The slash-free pairs of a node's walk are exactly its root files. -/
theorem filter_sepFree_relPairs {fs : List (List Nat × Option (List Nat))}
    {ds : List (List Nat × DirTree)} (hfn : ∀ p ∈ fs, p.1 ≠ [] ∧ 47 ∉ p.1) :
    (relPairs (.node fs ds)).filter sepFree =
      (sortPairs fs).map (fun p => (p.1, fileBytes p.2)) := by
  rw [relPairs_node, List.filter_append]
  have h1 : ((sortPairs fs).map (fun p => (p.1, fileBytes p.2))).filter sepFree =
      (sortPairs fs).map (fun p => (p.1, fileBytes p.2)) := by
    rw [List.filter_eq_self]
    intro a ha
    obtain ⟨p, hp, hpa⟩ := List.mem_map.mp ha
    have h47 : 47 ∉ p.1 := (hfn p ((sortPairs_perm fs).mem_iff.mp hp)).2
    rw [← hpa]
    simp [sepFree, h47]
  have h2 : (relDirs (sortPairs ds)).filter sepFree = [] := by
    rw [List.filter_eq_nil_iff]
    intro a ha
    have := mem_relDirs_has_sep ha
    simp [sepFree, this]
  rw [h1, h2, List.append_nil]

/-- The slashed pairs of a node's walk are exactly its subdirectory pairs. -/
theorem filter_hasSep_relPairs {fs : List (List Nat × Option (List Nat))}
    {ds : List (List Nat × DirTree)} (hfn : ∀ p ∈ fs, p.1 ≠ [] ∧ 47 ∉ p.1) :
    (relPairs (.node fs ds)).filter hasSep = relDirs (sortPairs ds) := by
  rw [relPairs_node, List.filter_append]
  have h1 : ((sortPairs fs).map (fun p => (p.1, fileBytes p.2))).filter hasSep = [] := by
    rw [List.filter_eq_nil_iff]
    intro a ha
    obtain ⟨p, hp, hpa⟩ := List.mem_map.mp ha
    have h47 : 47 ∉ p.1 := (hfn p ((sortPairs_perm fs).mem_iff.mp hp)).2
    rw [← hpa]
    simp [hasSep, h47]
  have h2 : (relDirs (sortPairs ds)).filter hasSep = relDirs (sortPairs ds) := by
    rw [List.filter_eq_self]
    intro a ha
    simp [hasSep, mem_relDirs_has_sep ha]
  rw [h1, h2, List.nil_append]

/-- When no entry of `L` is called `d`, no walk pair groups under `d`. -/
theorem filter_inGroup_of_not_mem {d : List Nat} {L : List (List Nat × DirTree)}
    (hnames : ∀ p ∈ L, 47 ∉ p.1) (hd : d ∉ L.map Prod.fst) :
    (relDirs L).filter (inGroup d) = [] := by
  induction L with
  | nil => rfl
  | cons p L ih =>
    obtain ⟨d2, t⟩ := p
    have hne : d2 ≠ d := by
      intro h
      exact hd (by simp [h])
    have hd2 : d ∉ L.map Prod.fst := fun h => hd (by simp [h])
    simp only [relDirs, List.filter_append]
    have h1 : ((relPairs t).map (fun q => (d2 ++ 47 :: q.1, q.2))).filter (inGroup d) = [] := by
      rw [List.filter_eq_nil_iff]
      intro a ha
      obtain ⟨r, hr, hra⟩ := List.mem_map.mp ha
      rw [← hra]
      simp only [inGroup]
      rw [firstSeg_prepend d2 r.1 (hnames (d2, t) (List.mem_cons_self _ _))]
      simp [hne]
    rw [h1, List.nil_append]
    exact ih (fun p hp => hnames p (List.mem_cons_of_mem _ hp)) hd2

/-- When `(d, s)` is the (unique) entry called `d`, the pairs grouping under
`d` are exactly the walk pairs of `s`, prefixed. -/
theorem filter_inGroup_of_mem {d : List Nat} {s : DirTree}
    {L : List (List Nat × DirTree)} (hnames : ∀ p ∈ L, 47 ∉ p.1)
    (hnodup : (L.map Prod.fst).Nodup) (hmem : (d, s) ∈ L) :
    (relDirs L).filter (inGroup d) =
      (relPairs s).map (fun q => (d ++ 47 :: q.1, q.2)) := by
  induction L with
  | nil => exact absurd hmem (List.not_mem_nil _)
  | cons p L ih =>
    obtain ⟨d2, t⟩ := p
    obtain ⟨hd2, hnodup2⟩ := List.nodup_cons.mp hnodup
    simp only [relDirs, List.filter_append]
    rcases List.mem_cons.mp hmem with heq | hmem2
    · rw [Prod.mk.injEq] at heq
      obtain ⟨hdd, hts⟩ := heq
      subst hdd
      subst hts
      have h1 : ((relPairs s).map (fun q => (d ++ 47 :: q.1, q.2))).filter (inGroup d) =
          (relPairs s).map (fun q => (d ++ 47 :: q.1, q.2)) := by
        rw [List.filter_eq_self]
        intro a ha
        obtain ⟨r, hr, hra⟩ := List.mem_map.mp ha
        rw [← hra]
        simp only [inGroup]
        rw [firstSeg_prepend d r.1 (hnames (d, s) (List.mem_cons_self _ _))]
        simp
      have h2 : (relDirs L).filter (inGroup d) = [] :=
        filter_inGroup_of_not_mem (fun p hp => hnames p (List.mem_cons_of_mem _ hp)) hd2
      rw [h1, h2, List.append_nil]
    · have hdne : d2 ≠ d := by
        intro h
        subst h
        exact hd2 (by simpa using List.mem_map_of_mem Prod.fst hmem2)
      have h1 : ((relPairs t).map (fun q => (d2 ++ 47 :: q.1, q.2))).filter (inGroup d) = [] := by
        rw [List.filter_eq_nil_iff]
        intro a ha
        obtain ⟨r, hr, hra⟩ := List.mem_map.mp ha
        rw [← hra]
        simp only [inGroup]
        rw [firstSeg_prepend d2 r.1 (hnames (d2, t) (List.mem_cons_self _ _))]
        simp [hdne]
      rw [h1, List.nil_append]
      exact ih (fun p hp => hnames p (List.mem_cons_of_mem _ hp)) hnodup2 hmem2

/-- Entries whose subtree holds no file contribute nothing to the walk. -/
theorem relDirs_filter_nonempty (L : List (List Nat × DirTree)) :
    relDirs L = relDirs (L.filter (fun p => !(relPairs p.2).isEmpty)) := by
  induction L with
  | nil => rfl
  | cons p L ih =>
    obtain ⟨d, t⟩ := p
    by_cases h : relPairs t = []
    · simp [relDirs, List.filter_cons, h, ih]
    · simp only [relDirs, List.filter_cons]
      have : (!(relPairs (d, t).2).isEmpty) = true := by
        simp [List.isEmpty_iff, h]
      rw [if_pos this]
      simp only [relDirs]
      rw [ih]

/-! ## Canonical form of the walk pairs -/

/-- Strict lexicographic order on plain byte strings. -/
def lexLtP (a b : List Nat) : Prop := lexLeB a b = true ∧ a ≠ b

instance : IsAntisymm (List Nat) lexLtP :=
  ⟨fun _ _ h1 h2 => absurd (lexLeB_antisymm h1.1 h2.1) h1.2⟩

/-- Two permuted key-sorted lists with distinct keys are equal. -/
theorem eq_of_perm_sorted_nodupKeys {β : Type} {l1 l2 : List (List Nat × β)}
    (hp : List.Perm l1 l2) (hs1 : List.Sorted keyLe l1) (hs2 : List.Sorted keyLe l2)
    (hn : (l1.map Prod.fst).Nodup) : l1 = l2 :=
  List.eq_of_perm_of_sorted hp (sorted_keyLt_of_nodup hs1 hn)
    (sorted_keyLt_of_nodup hs2 ((hp.map Prod.fst).nodup_iff.mp hn))

/-- The key list of a key-sorted, key-distinct pair list is strictly sorted. -/
theorem keys_sorted_lt {β : Type} {E : List (List Nat × β)}
    (hs : List.Sorted keyLe E) (hn : (E.map Prod.fst).Nodup) :
    List.Sorted lexLtP (E.map Prod.fst) := by
  have h1 : E.Pairwise (fun p q : List Nat × β => lexLeB p.1 q.1 = true) := hs
  have h2 : E.Pairwise (fun p q : List Nat × β => p.1 ≠ q.1) := List.pairwise_map.mp hn
  exact List.pairwise_map.mpr ((h1.and h2).imp (fun h => h))

/-- Sorted, duplicate-free byte-string lists with the same members are equal. -/
theorem sorted_keys_ext {l1 l2 : List (List Nat)} (hs1 : List.Sorted lexLtP l1)
    (hs2 : List.Sorted lexLtP l2) (hn1 : l1.Nodup) (hn2 : l2.Nodup)
    (hm : ∀ a, a ∈ l1 ↔ a ∈ l2) : l1 = l2 :=
  List.eq_of_perm_of_sorted ((List.perm_ext_iff_of_nodup hn1 hn2).mpr hm) hs1 hs2

/-- Prefixing a fixed directory name onto walk pairs is injective. -/
theorem prepend_injective (d : List Nat) :
    Function.Injective (fun q : List Nat × List Nat => (d ++ 47 :: q.1, q.2)) := by
  intro a b h
  have h1 := congrArg Prod.fst h
  have h2 := congrArg Prod.snd h
  simp only [List.append_cancel_left_eq, List.cons.injEq, true_and] at h1
  exact Prod.ext h1 h2

/-- A permutation of images under an injective map comes from a permutation. -/
theorem perm_of_map_perm {α β : Type} {f : α → β} (hinj : Function.Injective f)
    {l1 l2 : List α} (h : List.Perm (l1.map f) (l2.map f)) : List.Perm l1 l2 := by
  rw [← Multiset.coe_eq_coe] at h ⊢
  rw [← Multiset.map_coe, ← Multiset.map_coe] at h
  exact Multiset.map_injective hinj h

/-- Walk-pair runs over entry lists with the same names and, name for name,
the same walk pairs, are equal. -/
theorem relDirs_congr {E1 : List (List Nat × DirTree)} :
    ∀ {E2 : List (List Nat × DirTree)}, E1.map Prod.fst = E2.map Prod.fst →
    (∀ d s1 s2, (d, s1) ∈ E1 → (d, s2) ∈ E2 → relPairs s1 = relPairs s2) →
    relDirs E1 = relDirs E2 := by
  induction E1 with
  | nil =>
    intro E2 hk _
    cases E2 with
    | nil => rfl
    | cons p E2 => simp at hk
  | cons p E1 ih =>
    intro E2 hk hg
    cases E2 with
    | nil => simp at hk
    | cons p2 E2 =>
      obtain ⟨d, s1⟩ := p
      obtain ⟨d2, s2⟩ := p2
      simp only [List.map_cons, List.cons.injEq] at hk
      obtain ⟨hd, hk2⟩ := hk
      subst hd
      have hgrp : relPairs s1 = relPairs s2 :=
        hg d s1 s2 (List.mem_cons_self _ _) (List.mem_cons_self _ _)
      simp only [relDirs]
      rw [hgrp, ih hk2
        (fun e a b ha hb => hg e a b (List.mem_cons_of_mem _ ha) (List.mem_cons_of_mem _ hb))]

/-- A name `d` survives the empty-group filter exactly when some walk pair
groups under `d`. -/
theorem mem_filtered_keys_iff {L : List (List Nat × DirTree)}
    (hnames : ∀ p ∈ L, 47 ∉ p.1) (hnodup : (L.map Prod.fst).Nodup) (d : List Nat) :
    d ∈ (L.filter (fun p => !(relPairs p.2).isEmpty)).map Prod.fst ↔
      (relDirs L).filter (inGroup d) ≠ [] := by
  constructor
  · intro h
    obtain ⟨p, hpE, hpd⟩ := List.mem_map.mp h
    obtain ⟨hpL, hpNE⟩ := List.mem_filter.mp hpE
    have hne : relPairs p.2 ≠ [] := by
      simpa [List.isEmpty_iff] using hpNE
    have hmem : (d, p.2) ∈ L := by
      rw [← hpd]
      exact hpL
    rw [filter_inGroup_of_mem hnames hnodup hmem]
    simp [hne]
  · intro h
    by_cases hd : d ∈ L.map Prod.fst
    · obtain ⟨p, hpL, hpd⟩ := List.mem_map.mp hd
      have hmem : (d, p.2) ∈ L := by
        rw [← hpd]
        exact hpL
      rw [filter_inGroup_of_mem hnames hnodup hmem] at h
      have hne : relPairs p.2 ≠ [] := by
        intro hnil
        rw [hnil] at h
        exact h rfl
      refine List.mem_map.mpr ⟨p, List.mem_filter.mpr ⟨hpL, ?_⟩, hpd⟩
      simp [List.isEmpty_iff, hne]
    · exact absurd (filter_inGroup_of_not_mem hnames hd) h

/-- The walk-pair list of a well-formed tree is determined by its multiset:
any two well-formed trees whose walk pairs agree up to permutation have
identical walk-pair lists. -/
theorem relPairs_perm_eq : ∀ t1 : DirTree, WF t1 → ∀ t2 : DirTree, WF t2 →
    List.Perm (relPairs t1) (relPairs t2) → relPairs t1 = relPairs t2 := by
  intro t1
  induction t1 using dirTreeInd with
  | _ fs1 ds1 ih =>
    intro hw1 t2 hw2 hperm
    cases t2 with
    | node fs2 ds2 =>
      obtain ⟨hfs1, hds1, hfn1, hdn1, hsub1⟩ := wf_node_inv hw1
      obtain ⟨hfs2, hds2, hfn2, hdn2, hsub2⟩ := wf_node_inv hw2
      have hFP : List.Perm ((sortPairs fs1).map (fun p => (p.1, fileBytes p.2)))
          ((sortPairs fs2).map (fun p => (p.1, fileBytes p.2))) := by
        rw [← @filter_sepFree_relPairs fs1 ds1 hfn1,
          ← @filter_sepFree_relPairs fs2 ds2 hfn2]
        exact hperm.filter sepFree
      have hDP : List.Perm (relDirs (sortPairs ds1)) (relDirs (sortPairs ds2)) := by
        rw [← filter_hasSep_relPairs hfn1, ← filter_hasSep_relPairs hfn2]
        exact hperm.filter hasSep
      have hFPsorted : ∀ (fs : List (List Nat × Option (List Nat))),
          List.Sorted keyLe ((sortPairs fs).map (fun p => (p.1, fileBytes p.2))) :=
        fun fs => List.pairwise_map.mpr (sortPairs_sorted fs)
      have hFPkeys : ((sortPairs fs1).map (fun p => (p.1, fileBytes p.2))).map Prod.fst =
          (sortPairs fs1).map Prod.fst := by
        rw [List.map_map]
        rfl
      have hFPeq : (sortPairs fs1).map (fun p => (p.1, fileBytes p.2)) =
          (sortPairs fs2).map (fun p => (p.1, fileBytes p.2)) := by
        refine eq_of_perm_sorted_nodupKeys hFP (hFPsorted fs1) (hFPsorted fs2) ?_
        rw [hFPkeys]
        exact ((sortPairs_perm fs1).map Prod.fst).nodup_iff.mpr hfs1
      have hn47a : ∀ p ∈ sortPairs ds1, 47 ∉ p.1 :=
        fun p hp => (hdn1 p ((sortPairs_perm ds1).mem_iff.mp hp)).2
      have hn47b : ∀ p ∈ sortPairs ds2, 47 ∉ p.1 :=
        fun p hp => (hdn2 p ((sortPairs_perm ds2).mem_iff.mp hp)).2
      have hnda : ((sortPairs ds1).map Prod.fst).Nodup :=
        ((sortPairs_perm ds1).map Prod.fst).nodup_iff.mpr hds1
      have hndb : ((sortPairs ds2).map Prod.fst).Nodup :=
        ((sortPairs_perm ds2).map Prod.fst).nodup_iff.mpr hds2
      have hkeysE : ((sortPairs ds1).filter (fun p => !(relPairs p.2).isEmpty)).map Prod.fst =
          ((sortPairs ds2).filter (fun p => !(relPairs p.2).isEmpty)).map Prod.fst := by
        refine sorted_keys_ext ?_ ?_ ?_ ?_ ?_
        · exact keys_sorted_lt ((sortPairs_sorted ds1).filter _)
            (((List.filter_sublist _).map Prod.fst).nodup hnda)
        · exact keys_sorted_lt ((sortPairs_sorted ds2).filter _)
            (((List.filter_sublist _).map Prod.fst).nodup hndb)
        · exact ((List.filter_sublist _).map Prod.fst).nodup hnda
        · exact ((List.filter_sublist _).map Prod.fst).nodup hndb
        · intro d
          rw [mem_filtered_keys_iff hn47a hnda d, mem_filtered_keys_iff hn47b hndb d]
          constructor
          · intro h hnil
            have h2 : List.Perm (List.filter (inGroup d) (relDirs (sortPairs ds1))) [] := by
              rw [← hnil]
              exact hDP.filter (inGroup d)
            exact h h2.eq_nil
          · intro h hnil
            have h2 : List.Perm (List.filter (inGroup d) (relDirs (sortPairs ds2))) [] := by
              rw [← hnil]
              exact (hDP.filter (inGroup d)).symm
            exact h h2.eq_nil
      have hgroups : ∀ d s1 s2,
          (d, s1) ∈ (sortPairs ds1).filter (fun p => !(relPairs p.2).isEmpty) →
          (d, s2) ∈ (sortPairs ds2).filter (fun p => !(relPairs p.2).isEmpty) →
          relPairs s1 = relPairs s2 := by
        intro d s1 s2 h1 h2
        obtain ⟨h1L, _⟩ := List.mem_filter.mp h1
        obtain ⟨h2L, _⟩ := List.mem_filter.mp h2
        have e1 := filter_inGroup_of_mem hn47a hnda h1L
        have e2 := filter_inGroup_of_mem hn47b hndb h2L
        have hmapperm : List.Perm ((relPairs s1).map (fun q => (d ++ 47 :: q.1, q.2)))
            ((relPairs s2).map (fun q => (d ++ 47 :: q.1, q.2))) := by
          rw [← e1, ← e2]
          exact hDP.filter (inGroup d)
        have hpp := perm_of_map_perm (prepend_injective d) hmapperm
        have hm1 : (d, s1) ∈ ds1 := (sortPairs_perm ds1).mem_iff.mp h1L
        have hm2 : (d, s2) ∈ ds2 := (sortPairs_perm ds2).mem_iff.mp h2L
        exact ih (d, s1) hm1 (hsub1 _ hm1) s2 (hsub2 _ hm2) hpp
      have hDPeq : relDirs (sortPairs ds1) = relDirs (sortPairs ds2) := by
        rw [relDirs_filter_nonempty (sortPairs ds1), relDirs_filter_nonempty (sortPairs ds2)]
        exact relDirs_congr hkeysE hgroups
      rw [relPairs_node, relPairs_node, hFPeq, hDPeq]

/-- Inserting an empty subdirectory anywhere leaves the stream unchanged. -/
theorem edir_stream_eq {t1 t2 : DirTree} (h : EDir t1 t2) :
    WF t2 → ∀ pre, streamTree pre t1 = streamTree pre t2 := by
  induction h with
  | here =>
    rename_i fs ds1 ds2 d
    intro hw2 pre
    obtain ⟨_, hds2, _, _, _⟩ := wf_node_inv hw2
    rw [streamTree_node, streamTree_node, sortPairs_middle ds1 ds2 (d, .node [] []) hds2]
    obtain ⟨A, B, hsplit, hAB⟩ := streamDirs_split pre (sortPairs (ds1 ++ ds2)) d
    rw [hsplit (.node [] []), hAB, streamTree_nil_node]
    simp
  | child hc ih =>
    rename_i fs ds1 ds2 d t t'
    intro hw2 pre
    obtain ⟨_, hds2, _, _, hsub2⟩ := wf_node_inv hw2
    have hds1 : ((ds1 ++ (d, t) :: ds2).map Prod.fst).Nodup := by
      rw [keys_middle_eq ds1 ds2 d t t']
      exact hds2
    rw [streamTree_node, streamTree_node,
      sortPairs_middle ds1 ds2 (d, t) hds1, sortPairs_middle ds1 ds2 (d, t') hds2]
    obtain ⟨A, B, hsplit, _⟩ := streamDirs_split pre (sortPairs (ds1 ++ ds2)) d
    rw [hsplit t, hsplit t',
      ih (hsub2 (d, t') (List.mem_append_right _ (List.mem_cons_self _ _))) (pathBytes pre d)]

/-- C10: the digest depends only on the lexicographically ordered sequence of
(relative file path, file content) pairs — well-formed trees with the same
sorted pair sequence hash identically — and, since directories contribute no
bytes of their own, adding (or, read backwards, removing) an empty
subdirectory anywhere in the tree leaves the digest unchanged. -/
theorem digest_depends_only_on_file_pairs :
    (∀ t1 t2 : DirTree, WF t1 → WF t2 →
      sortPairs (relPairs t1) = sortPairs (relPairs t2) →
      calculate_directory_hash (some t1) = calculate_directory_hash (some t2)) ∧
    (∀ t1 t2 : DirTree, WF t2 → EDir t1 t2 →
      calculate_directory_hash (some t1) = calculate_directory_hash (some t2)) := by
  constructor
  · intro t1 t2 hw1 hw2 hsorted
    have h1 : List.Perm (relPairs t1) (sortPairs (relPairs t1)) :=
      (sortPairs_perm _).symm
    rw [hsorted] at h1
    have hperm := h1.trans (sortPairs_perm _)
    have heq := relPairs_perm_eq t1 hw1 t2 hw2 hperm
    show md5hex (streamTree [] t1) = md5hex (streamTree [] t2)
    rw [streamTree_eq_relPairs t1 hw1 [], streamTree_eq_relPairs t2 hw2 [], heq]
  · intro t1 t2 hw2 hedir
    show md5hex (streamTree [] t1) = md5hex (streamTree [] t2)
    rw [edir_stream_eq hedir hw2 []]

/-- C10 witness: adding an empty subdirectory `b` beside the file `a` leaves
the digest unchanged. -/
theorem digest_depends_only_on_file_pairs_witness :
    calculate_directory_hash (some (.node [([97], some [120])] [])) =
      calculate_directory_hash
        (some (.node [([97], some [120])] [([98], .node [] [])])) :=
  digest_depends_only_on_file_pairs.2 _ _
    (.node (by decide) (by decide) (by decide) (by decide)
      (by
        intro p hp
        rw [List.mem_singleton] at hp
        subst hp
        exact .node (by decide) (by decide) (fun q hq => nomatch hq)
          (fun q hq => nomatch hq) (fun q hq => nomatch hq)))
    (@EDir.here [([97], some [120])] [] [] [98])
